import Mathlib

/-!
Verification of the Faith's Phylogenetic Diversity (PD) core of the
plantguide repository (src/src/Stage_4).

The C++ sources operate on a `compact_tree` (dense integer node ids,
parent array, per-node edge lengths).  We embed the tree as a record of
total functions; the parent of the root is `none` (the C++ library uses
the sentinel `NULL_NODE`).  Edge lengths are modelled as exact rationals
standing for the C++ `double` values; PD accumulation is exact rational
addition.

The while-loops walking a leaf's parent chain up to the MRCA have no
structural termination measure in C++ (they terminate only when the MRCA
is an ancestor of the leaf), so they are embedded fuel-indexed with
result type `Option`: `none` models the non-terminating / out-of-bounds
execution.  The fuel used by the embedded entry points is `numNodes`,
which suffices for every well-formed tree (a simple parent chain visits
each node at most once).
-/

/-- In-memory rooted tree, as exposed by the CompactTree accessors used in
`calculate_faiths_pd_optimized.cpp`: dense ids, `get_parent`,
`get_edge_length`, `get_num_nodes`. -/
structure CTree where
  numNodes : Nat
  parent : Nat → Option Nat
  edgeLength : Nat → ℚ

/-- The ancestor chain of a node: the node, its parent, grandparent, ...
up to the root (a node with no parent), cut off by fuel. -/
def upChain (t : CTree) : Nat → Nat → List Nat
  | 0, n => [n]
  | f + 1, n =>
    match t.parent n with
    | none => [n]
    | some p => n :: upChain t f p

/-- `isAncestor t a n` : `a` lies on the parent chain of `n` (within
`numNodes` steps); `a` is an ancestor of `n` or equal to it. -/
def isAncestor (t : CTree) (a n : Nat) : Bool :=
  decide (a ∈ upChain t t.numNodes n)

/-- Minimum of a list of node ids (0 for the empty list). -/
def listMin : List Nat → Nat
  | [] => 0
  | x :: xs => xs.foldl Nat.min x

/-- Modelled from the spec: `compact_tree::find_mrca` lives in
`compact_tree.h` (the external CompactTree library), which is not part of
the repository sources.  Spec §4.2 guarantees the returned node is "an
ancestor of (or equal to) every id in `leaf_ids`, and no descendant of
the returned node has the same property — i.e., it is the unique deepest
common ancestor", and §9 allows any algorithm with that observable
result.  We model it as: the first node on the ancestor chain of the
smallest listed leaf that is an ancestor of every listed leaf (ancestor
chains are ordered deepest-first, so the first common ancestor hit is the
deepest).  The C++ call site passes an `unordered_set`, so only the set
of ids matters; this model depends only on list membership. -/
def find_mrca (t : CTree) (leaves : List Nat) : Nat :=
  match (upChain t t.numNodes (listMin leaves)).find?
      (fun a => leaves.all (fun x => isAncestor t a x)) with
  | some m => m
  | none => listMin leaves

/-- The parent-chain path from `current` up to (but excluding) `mrca`:
the nodes strictly below the MRCA that the C++ while-loop visits.
`none` models a walk that never reaches `mrca` (infinite loop /
out-of-bounds in C++). -/
def chainToMrca (t : CTree) (mrca : Nat) : Nat → Nat → Option (List Nat)
  | 0, current => if current = mrca then some [] else none
  | f + 1, current =>
    if current = mrca then some []
    else
      match t.parent current with
      | none => none
      | some p => (chainToMrca t mrca f p).map (fun l => current :: l)

/-- The inner while-loop of `calculate_faiths_pd_optimized` (lines 61-67):
walk from `current` up to `mrca`; any node not yet marked visited
contributes its edge length and is marked.  The visited byte array is
modelled as the finite set of marked node ids. -/
def walkUp (t : CTree) (mrca : Nat) :
    Nat → Nat → Finset Nat → ℚ → Option (Finset Nat × ℚ)
  | 0, current, visited, acc =>
    if current = mrca then some (visited, acc) else none
  | f + 1, current, visited, acc =>
    if current = mrca then some (visited, acc)
    else
      match t.parent current with
      | none => none
      | some p =>
        if current ∈ visited then walkUp t mrca f p visited acc
        else walkUp t mrca f p (insert current visited) (acc + t.edgeLength current)

/-- The outer `for (CT_NODE_T leaf : leaf_nodes)` loop of
`calculate_faiths_pd_optimized`, threading the visited set and the
running total through the per-leaf walks. -/
def pdFold (t : CTree) (mrca fuel : Nat) :
    List Nat → Finset Nat → ℚ → Option (Finset Nat × ℚ)
  | [], visited, acc => some (visited, acc)
  | leaf :: rest, visited, acc =>
    match walkUp t mrca fuel leaf visited acc with
    | none => none
    | some (v, a) => pdFold t mrca fuel rest v a

/-- `calculate_faiths_pd_optimized` (calculate_faiths_pd_optimized.cpp,
lines 36-71): guard on fewer than 2 leaves, find the MRCA of the leaf
set, then sum unmarked edge lengths along every leaf-to-MRCA walk. -/
def calculate_faiths_pd_optimized (t : CTree) (leaf_nodes : List Nat) : Option ℚ :=
  if leaf_nodes.length = 0 then some 0
  else if leaf_nodes.length = 1 then some 0
  else
    match pdFold t (find_mrca t leaf_nodes) t.numNodes leaf_nodes ∅ 0 with
    | none => none
    | some (_, total) => some total

/-- The loop body sequence of `calculate_faiths_pd_batch`
(calculate_faiths_pd_optimized.cpp, lines 85-111): one shared visited
buffer threaded through the guilds; guilds with fewer than 2 leaves push
0.0 and leave the buffer untouched; otherwise the buffer is reset to
all-false (`fill(visited.begin(), visited.end(), 0)`, modelled as `∅`)
before the guild's walks. -/
def batchGo (t : CTree) (fuel : Nat) :
    List (List Nat) → Finset Nat → Option (List ℚ)
  | [], _ => some []
  | leaf_nodes :: rest, visited =>
    if leaf_nodes.length < 2 then
      (batchGo t fuel rest visited).map (fun rs => 0 :: rs)
    else
      match pdFold t (find_mrca t leaf_nodes) fuel leaf_nodes ∅ 0 with
      | none => none
      | some (v, total) => (batchGo t fuel rest v).map (fun rs => total :: rs)

/-- `calculate_faiths_pd_batch` (lines 75-114): evaluate every guild
against the tree, reusing one visited buffer (initially all-false). -/
def calculate_faiths_pd_batch (t : CTree) (guilds : List (List Nat)) :
    Option (List ℚ) :=
  batchGo t t.numNodes guilds ∅

/-- The union of the leaf-to-MRCA paths (nodes strictly below the MRCA
lying on some listed leaf's parent chain to the MRCA); `none` when some
leaf's walk does not reach the MRCA. -/
def pathUnion (t : CTree) (mrca fuel : Nat) : List Nat → Option (Finset Nat)
  | [] => some ∅
  | leaf :: rest =>
    match chainToMrca t mrca fuel leaf, pathUnion t mrca fuel rest with
    | some p, some s => some (p.toFinset ∪ s)
    | _, _ => none

/-- The concrete tree of spec §8: root R with children A and B; A is
internal with edge length 2 from R and leaf children X, Y of edge
length 1 each; B is a leaf with edge length 3 from R.  Ids: R=0, A=1,
B=2, X=3, Y=4. -/
def specTree : CTree where
  numNodes := 5
  parent := fun n =>
    match n with
    | 1 => some 0
    | 2 => some 0
    | 3 => some 1
    | 4 => some 1
    | _ => none
  edgeLength := fun n =>
    match n with
    | 1 => 2
    | 2 => 3
    | 3 => 1
    | 4 => 1
    | _ => 0

lemma sum_sdiff_union_split (e : Nat → ℚ) (A B V : Finset Nat) :
    ∑ x ∈ (A ∪ B) \ V, e x =
      (∑ x ∈ A \ V, e x) + ∑ x ∈ B \ (V ∪ A), e x := by
  rw [show (A ∪ B) \ V = (A \ V) ∪ (B \ (V ∪ A)) by
    ext x; simp only [Finset.mem_sdiff, Finset.mem_union]; tauto]
  exact Finset.sum_union (by
    simp only [Finset.disjoint_left, Finset.mem_sdiff, Finset.mem_union]
    tauto)

/-- The imperative walk of the inner while-loop equals the path to the MRCA,
interpreted as a set union and a set sum of edge lengths. -/
lemma walkUp_eq (t : CTree) (mrca : Nat) (fuel : Nat) :
    ∀ (current : Nat) (visited : Finset Nat) (acc : ℚ),
    walkUp t mrca fuel current visited acc =
      (chainToMrca t mrca fuel current).map
        (fun p => (visited ∪ p.toFinset,
          acc + ∑ x ∈ p.toFinset \ visited, t.edgeLength x)) := by
  induction fuel with
  | zero =>
    intro current visited acc
    by_cases h : current = mrca <;> simp [walkUp, chainToMrca, h]
  | succ f ih =>
    intro current visited acc
    by_cases h : current = mrca
    · simp [walkUp, chainToMrca, h]
    · cases hp : t.parent current with
      | none => simp [walkUp, chainToMrca, h, hp]
      | some p =>
        simp only [walkUp, chainToMrca, h, if_false, hp]
        by_cases hv : current ∈ visited
        · rw [if_pos hv, ih]
          cases hq : chainToMrca t mrca f p with
          | none => simp
          | some q =>
            simp only [Option.map_some']
            have h1 : visited ∪ (current :: q).toFinset = visited ∪ q.toFinset := by
              rw [List.toFinset_cons, Finset.union_insert,
                Finset.insert_eq_self.mpr (Finset.mem_union_left _ hv)]
            have h2 : (current :: q).toFinset \ visited = q.toFinset \ visited := by
              rw [List.toFinset_cons, Finset.insert_sdiff_of_mem _ hv]
            rw [h1, h2]
        · rw [if_neg hv, ih]
          cases hq : chainToMrca t mrca f p with
          | none => simp
          | some q =>
            simp only [Option.map_some']
            have h1 : insert current visited ∪ q.toFinset =
                visited ∪ (current :: q).toFinset := by
              rw [List.toFinset_cons, Finset.insert_union, Finset.union_insert]
            have h3 : ∑ x ∈ (current :: q).toFinset \ visited, t.edgeLength x =
                t.edgeLength current +
                  ∑ x ∈ q.toFinset \ insert current visited, t.edgeLength x := by
              rw [List.toFinset_cons, Finset.insert_sdiff_of_not_mem _ hv,
                Finset.sdiff_insert]
              rw [show insert current (q.toFinset \ visited) =
                  insert current ((q.toFinset \ visited).erase current) by
                ext y; by_cases hy : y = current <;> simp [hy]]
              rw [Finset.sum_insert (Finset.not_mem_erase _ _)]
            rw [h1, h3, ← add_assoc]

/-- The per-leaf loop of `calculate_faiths_pd_optimized` equals the union of
the leaf-to-MRCA paths, interpreted as a set and a set sum. -/
lemma pdFold_eq (t : CTree) (mrca fuel : Nat) :
    ∀ (leaves : List Nat) (visited : Finset Nat) (acc : ℚ),
    pdFold t mrca fuel leaves visited acc =
      (pathUnion t mrca fuel leaves).map
        (fun S => (visited ∪ S, acc + ∑ x ∈ S \ visited, t.edgeLength x)) := by
  intro leaves
  induction leaves with
  | nil => intro visited acc; simp [pdFold, pathUnion]
  | cons leaf rest ih =>
    intro visited acc
    simp only [pdFold, walkUp_eq]
    cases hq : chainToMrca t mrca fuel leaf with
    | none => simp [pathUnion, hq]
    | some p =>
      simp only [pathUnion, hq, Option.map_some']
      rw [ih]
      cases hs : pathUnion t mrca fuel rest with
      | none => simp
      | some S =>
        simp only [Option.map_some']
        rw [Finset.union_assoc, sum_sdiff_union_split, ← add_assoc]


/-- Claim C1: for every tree and every list of at least two leaf ids, the
result of `calculate_faiths_pd_optimized` is the sum of `edgeLength` over
the set of nodes strictly below the MRCA lying on some leaf's path to the
MRCA — each edge counted exactly once however many paths share it. -/
theorem faiths_pd_counts_path_union_once (t : CTree) (leaf_nodes : List Nat)
    (h2 : 2 ≤ leaf_nodes.length) (S : Finset Nat)
    (hS : pathUnion t (find_mrca t leaf_nodes) t.numNodes leaf_nodes = some S) :
    calculate_faiths_pd_optimized t leaf_nodes = some (∑ x ∈ S, t.edgeLength x) := by
  unfold calculate_faiths_pd_optimized
  rw [if_neg (by omega), if_neg (by omega), pdFold_eq, hS]
  simp

theorem faiths_pd_counts_path_union_once_witness :
    2 ≤ ([3, 4] : List Nat).length ∧
      calculate_faiths_pd_optimized specTree [3, 4] =
        some (∑ x ∈ ({3, 4} : Finset Nat), specTree.edgeLength x) :=
  ⟨by decide,
    faiths_pd_counts_path_union_once specTree [3, 4] (by decide) {3, 4} (by decide)⟩

/-- A guild with fewer than two resolved leaves yields PD 0 immediately. -/
lemma single_short (t : CTree) (leaf_nodes : List Nat)
    (h : leaf_nodes.length < 2) :
    calculate_faiths_pd_optimized t leaf_nodes = some 0 := by
  unfold calculate_faiths_pd_optimized
  rcases (by omega : leaf_nodes.length = 0 ∨ leaf_nodes.length = 1) with h0 | h1
  · rw [if_pos h0]
  · rw [if_neg (by omega), if_pos h1]

/-- The batch loop's results do not depend on the incoming contents of the
shared visited buffer: the buffer is reset before every real guild and
passed through untouched for short guilds. -/
lemma batchGo_buffer_irrelevant (t : CTree) (fuel : Nat) :
    ∀ (guilds : List (List Nat)) (v1 v2 : Finset Nat),
      batchGo t fuel guilds v1 = batchGo t fuel guilds v2 := by
  intro guilds
  induction guilds with
  | nil => intro v1 v2; rfl
  | cons g rest ih =>
    intro v1 v2
    by_cases hg : g.length < 2
    · simp only [batchGo, if_pos hg, ih v1 v2]
    · simp only [batchGo, if_neg hg]

lemma batchGo_spec (t : CTree) :
    ∀ (guilds : List (List Nat)) (visited : Finset Nat) (res : List ℚ),
      batchGo t t.numNodes guilds visited = some res →
      res.length = guilds.length ∧
      ∀ i : Nat, res[i]? = (guilds[i]?).bind (calculate_faiths_pd_optimized t) := by
  intro guilds
  induction guilds with
  | nil =>
    intro visited res h
    simp only [batchGo, Option.some_inj] at h
    subst h
    exact ⟨rfl, by intro i; simp⟩
  | cons g rest ih =>
    intro visited res h
    by_cases hg : g.length < 2
    · simp only [batchGo, if_pos hg] at h
      cases hr : batchGo t t.numNodes rest visited with
      | none => rw [hr] at h; simp at h
      | some rs =>
        rw [hr] at h
        simp only [Option.map_some', Option.some_inj] at h
        subst h
        obtain ⟨hlen, hidx⟩ := ih visited rs hr
        refine ⟨by simp [hlen], ?_⟩
        intro i
        cases i with
        | zero => simp [single_short t g hg]
        | succ j => simpa using hidx j
    · simp only [batchGo, if_neg hg] at h
      cases hp : pdFold t (find_mrca t g) t.numNodes g ∅ 0 with
      | none => rw [hp] at h; simp at h
      | some va =>
        obtain ⟨v, total⟩ := va
        simp only [hp] at h
        cases hr : batchGo t t.numNodes rest v with
        | none => rw [hr] at h; simp at h
        | some rs =>
          rw [hr] at h
          simp only [Option.map_some', Option.some_inj] at h
          subst h
          obtain ⟨hlen, hidx⟩ := ih v rs hr
          refine ⟨by simp [hlen], ?_⟩
          intro i
          cases i with
          | zero =>
            have hsingle : calculate_faiths_pd_optimized t g = some total := by
              unfold calculate_faiths_pd_optimized
              rw [if_neg (by omega), if_neg (by omega), hp]
            simp [hsingle]
          | succ j => simpa using hidx j

/-- Claim C3: every entry of the batch result equals the standalone
computation on that guild alone; the shared visited buffer, reset before
each guild, leaks no state between guilds. -/
theorem batch_matches_single (t : CTree) (guilds : List (List Nat)) (res : List ℚ)
    (h : calculate_faiths_pd_batch t guilds = some res) :
    res.length = guilds.length ∧
    ∀ i : Nat, res[i]? = (guilds[i]?).bind (calculate_faiths_pd_optimized t) :=
  batchGo_spec t guilds ∅ res h

theorem batch_matches_single_witness :
    calculate_faiths_pd_batch specTree [[3, 4], [3], [3, 2]] = some [2, 0, 6] ∧
      ([2, 0, 6] : List ℚ).length = ([[3, 4], [3], [3, 2]] : List (List Nat)).length ∧
      ∀ i : Nat, ([2, 0, 6] : List ℚ)[i]? =
        (([[3, 4], [3], [3, 2]] : List (List Nat))[i]?).bind
          (calculate_faiths_pd_optimized specTree) := by
  have h : calculate_faiths_pd_batch specTree [[3, 4], [3], [3, 2]] = some [2, 0, 6] := by
    norm_num [calculate_faiths_pd_batch, batchGo, find_mrca, listMin, upChain, isAncestor,
      chainToMrca, pdFold, walkUp, specTree, List.find?, List.all]
  exact ⟨h, batch_matches_single specTree [[3, 4], [3], [3, 2]] [2, 0, 6] h⟩

/-- Claim C4: a guild with fewer than two leaf ids yields exactly 0 from
`calculate_faiths_pd_optimized`, and the batch records 0 for every such
guild while still evaluating all the other guilds of the batch. -/
theorem short_guild_yields_zero (t : CTree) (leaf_nodes : List Nat)
    (h : leaf_nodes.length < 2) :
    calculate_faiths_pd_optimized t leaf_nodes = some 0 ∧
    ∀ (guilds : List (List Nat)) (res : List ℚ) (i : Nat),
      calculate_faiths_pd_batch t guilds = some res →
      guilds[i]? = some leaf_nodes →
      res[i]? = some 0 ∧ res.length = guilds.length := by
  refine ⟨single_short t leaf_nodes h, ?_⟩
  intro guilds res i hb hi
  obtain ⟨hlen, hidx⟩ := batchGo_spec t guilds ∅ res hb
  refine ⟨?_, hlen⟩
  rw [hidx i, hi]
  simp [single_short t leaf_nodes h]

theorem short_guild_yields_zero_witness :
    calculate_faiths_pd_optimized specTree [3] = some 0 ∧
      ∀ (guilds : List (List Nat)) (res : List ℚ) (i : Nat),
        calculate_faiths_pd_batch specTree guilds = some res →
        guilds[i]? = some [3] →
        res[i]? = some 0 ∧ res.length = guilds.length :=
  short_guild_yields_zero specTree [3] (by decide)

/-- Claim C2 counterexample: the tree described in spec §8 (root R with
children A and B, A with leaf children X and Y, B a leaf) has exactly 5
nodes, not 7 as the claim labels it. -/
theorem spec_scenario_tree_has_five_nodes :
    specTree.numNodes = 5 ∧ specTree.numNodes ≠ 7 := by decide

/-- Claim C2 (amended: the described tree has 5 nodes, not 7): on the
spec's concrete tree, `calculate_faiths_pd_optimized` returns 2 for the
guild containing X and Y (MRCA A), 6 for the guild containing X and B
(MRCA R), and 0 for the singleton guild containing X. -/
theorem spec_scenario_values :
    find_mrca specTree [3, 4] = 1 ∧
    calculate_faiths_pd_optimized specTree [3, 4] = some 2 ∧
    find_mrca specTree [3, 2] = 0 ∧
    calculate_faiths_pd_optimized specTree [3, 2] = some 6 ∧
    calculate_faiths_pd_optimized specTree [3] = some 0 := by
  refine ⟨by decide, ?_, by decide, ?_, by decide⟩ <;>
    norm_num [calculate_faiths_pd_optimized, find_mrca, listMin, upChain, isAncestor,
      chainToMrca, pdFold, walkUp, specTree, List.find?, List.all]

lemma foldl_min_mem : ∀ (xs : List Nat) (a : Nat),
    xs.foldl Nat.min a = a ∨ xs.foldl Nat.min a ∈ xs := by
  intro xs
  induction xs with
  | nil => intro a; exact Or.inl rfl
  | cons x xs ih =>
    intro a
    have hm : Nat.min a x = a ∨ Nat.min a x = x := by
      by_cases hax : a ≤ x
      · exact Or.inl (Nat.min_eq_left hax)
      · exact Or.inr (Nat.min_eq_right (Nat.le_of_not_le hax))
    rcases ih (Nat.min a x) with h | h
    · rcases hm with hm | hm
      · left
        rw [List.foldl_cons, h, hm]
      · right
        rw [List.foldl_cons, h, hm]
        exact List.mem_cons_self x xs
    · exact Or.inr (List.mem_cons_of_mem _ h)

lemma foldl_min_le : ∀ (xs : List Nat) (a : Nat),
    xs.foldl Nat.min a ≤ a ∧ ∀ x ∈ xs, xs.foldl Nat.min a ≤ x := by
  intro xs
  induction xs with
  | nil => intro a; exact ⟨Nat.le_refl a, by simp⟩
  | cons x xs ih =>
    intro a
    obtain ⟨h1, h2⟩ := ih (Nat.min a x)
    refine ⟨Nat.le_trans h1 (Nat.min_le_left a x), ?_⟩
    intro y hy
    rcases List.mem_cons.mp hy with rfl | hy
    · exact Nat.le_trans h1 (Nat.min_le_right a y)
    · exact h2 y hy

lemma listMin_mem (l : List Nat) (h : l ≠ []) : listMin l ∈ l := by
  cases l with
  | nil => exact absurd rfl h
  | cons x xs =>
    rcases foldl_min_mem xs x with h1 | h1
    · simp only [listMin, h1]
      exact List.mem_cons_self x xs
    · simp only [listMin]
      exact List.mem_cons_of_mem _ h1

lemma listMin_le (l : List Nat) (y : Nat) (hy : y ∈ l) : listMin l ≤ y := by
  cases l with
  | nil => cases hy
  | cons x xs =>
    rcases List.mem_cons.mp hy with rfl | hy
    · exact (foldl_min_le xs y).1
    · exact (foldl_min_le xs x).2 y hy

/-- The list minimum depends only on the set of elements. -/
lemma listMin_congr (l l' : List Nat) (h : ∀ x, x ∈ l ↔ x ∈ l') :
    listMin l = listMin l' := by
  cases hl : l with
  | nil =>
    cases hl' : l' with
    | nil => rfl
    | cons y ys =>
      exact absurd ((h y).mpr (hl' ▸ List.mem_cons_self y ys)) (by simp [hl])
  | cons x xs =>
    have hne : l ≠ [] := by simp [hl]
    have hne' : l' ≠ [] := by
      intro hl'
      exact absurd ((h x).mp (hl ▸ List.mem_cons_self x xs)) (by simp [hl'])
    rw [← hl]
    exact Nat.le_antisymm
      (listMin_le l _ ((h _).mpr (listMin_mem l' hne')))
      (listMin_le l' _ ((h _).mp (listMin_mem l hne)))

/-- `List.all` depends only on the set of elements. -/
lemma all_congr_mem (l l' : List Nat) (p : Nat → Bool) (h : ∀ x, x ∈ l ↔ x ∈ l') :
    l.all p = l'.all p := by
  by_cases hb : l.all p = true
  · rw [hb]
    symm
    rw [List.all_eq_true] at hb ⊢
    exact fun x hx => hb x ((h x).mpr hx)
  · have hb' : ¬l'.all p = true := by
      rw [List.all_eq_true] at hb ⊢
      intro ha
      exact hb fun x hx => ha x ((h x).mp hx)
    rw [Bool.not_eq_true] at hb hb'
    rw [hb, hb']

/-- The modelled `find_mrca` depends only on the set of listed leaves
(the C++ call site passes an `unordered_set`). -/
lemma find_mrca_congr (t : CTree) (l l' : List Nat) (h : ∀ x, x ∈ l ↔ x ∈ l') :
    find_mrca t l = find_mrca t l' := by
  unfold find_mrca
  rw [listMin_congr l l' h,
    show (fun a => l.all fun x => isAncestor t a x) =
        (fun a => l'.all fun x => isAncestor t a x) from
      funext fun a => all_congr_mem l l' _ h]

lemma pathUnion_isSome (t : CTree) (m f : Nat) :
    ∀ l : List Nat,
      (pathUnion t m f l).isSome = true ↔
        ∀ x ∈ l, (chainToMrca t m f x).isSome = true := by
  intro l
  induction l with
  | nil => simp [pathUnion]
  | cons a l ih =>
    simp only [pathUnion, List.forall_mem_cons]
    cases hc : chainToMrca t m f a with
    | none => simp [hc]
    | some p =>
      cases hs : pathUnion t m f l with
      | none => rw [hs] at ih; simp [hc, ← ih]
      | some S => rw [hs] at ih; simp [hc, ← ih]

lemma pathUnion_mem (t : CTree) (m f : Nat) :
    ∀ (l : List Nat) (S : Finset Nat), pathUnion t m f l = some S →
      ∀ y : Nat, (y ∈ S ↔ ∃ x ∈ l, ∃ p, chainToMrca t m f x = some p ∧ y ∈ p) := by
  intro l
  induction l with
  | nil =>
    intro S h y
    simp only [pathUnion, Option.some_inj] at h
    subst h
    simp
  | cons a l ih =>
    intro S h y
    cases hc : chainToMrca t m f a with
    | none => simp [pathUnion, hc] at h
    | some p =>
      cases hs : pathUnion t m f l with
      | none => simp [pathUnion, hc, hs] at h
      | some S' =>
        simp only [pathUnion, hc, hs, Option.some_inj] at h
        subst h
        simp only [Finset.mem_union, List.mem_toFinset, List.mem_cons, ih S' hs y]
        constructor
        · rintro (hy | ⟨x, hx, q, hq, hyq⟩)
          · exact ⟨a, Or.inl rfl, p, hc, hy⟩
          · exact ⟨x, Or.inr hx, q, hq, hyq⟩
        · rintro ⟨x, rfl | hx, q, hq, hyq⟩
          · rw [hc] at hq
            exact Or.inl (Option.some_inj.mp hq ▸ hyq)
          · exact Or.inr ⟨x, hx, q, hq, hyq⟩

/-- The union of leaf-to-MRCA paths depends only on the set of listed
leaves. -/
lemma pathUnion_congr (t : CTree) (m f : Nat) (l l' : List Nat)
    (h : ∀ x, x ∈ l ↔ x ∈ l') :
    pathUnion t m f l = pathUnion t m f l' := by
  cases hs : pathUnion t m f l with
  | none =>
    cases hs' : pathUnion t m f l' with
    | none => rfl
    | some S' =>
      exfalso
      have h2 : (pathUnion t m f l).isSome = true := by
        rw [pathUnion_isSome]
        intro x hx
        have := (pathUnion_isSome t m f l').mp (by rw [hs']; rfl) x ((h x).mp hx)
        exact this
      rw [hs] at h2
      exact Bool.false_ne_true h2
  | some S =>
    cases hs' : pathUnion t m f l' with
    | none =>
      exfalso
      have h2 : (pathUnion t m f l').isSome = true := by
        rw [pathUnion_isSome]
        intro x hx
        have := (pathUnion_isSome t m f l).mp (by rw [hs]; rfl) x ((h x).mpr hx)
        exact this
      rw [hs'] at h2
      exact Bool.false_ne_true h2
    | some S' =>
      congr 1
      ext y
      rw [pathUnion_mem t m f l S hs y, pathUnion_mem t m f l' S' hs' y]
      constructor
      · rintro ⟨x, hx, q, hq, hyq⟩; exact ⟨x, (h x).mp hx, q, hq, hyq⟩
      · rintro ⟨x, hx, q, hq, hyq⟩; exact ⟨x, (h x).mpr hx, q, hq, hyq⟩

/-- Claim C5: `calculate_faiths_pd_optimized` is invariant under any
permutation of the leaf list. -/
theorem faiths_pd_perm_invariant (t : CTree) (l l' : List Nat) (h : l.Perm l') :
    calculate_faiths_pd_optimized t l = calculate_faiths_pd_optimized t l' := by
  have hmem : ∀ x, x ∈ l ↔ x ∈ l' := fun x => h.mem_iff
  unfold calculate_faiths_pd_optimized
  rw [h.length_eq]
  by_cases h0 : l'.length = 0
  · rw [if_pos h0, if_pos h0]
  by_cases h1 : l'.length = 1
  · rw [if_neg h0, if_pos h1, if_neg h0, if_pos h1]
  rw [if_neg h0, if_neg h1, if_neg h0, if_neg h1,
    find_mrca_congr t l l' hmem, pdFold_eq, pdFold_eq,
    pathUnion_congr t _ _ l l' hmem]

theorem faiths_pd_perm_invariant_witness :
    ([3, 4] : List Nat).Perm [4, 3] ∧
      calculate_faiths_pd_optimized specTree [3, 4] =
        calculate_faiths_pd_optimized specTree [4, 3] :=
  ⟨by decide, faiths_pd_perm_invariant specTree [3, 4] [4, 3] (by decide)⟩

/-- Remove duplicates keeping first occurrences, tracking already seen
ids in an accumulator. -/
def dedupFirstAux (seen : List Nat) : List Nat → List Nat
  | [] => []
  | x :: xs =>
    if x ∈ seen then dedupFirstAux seen xs
    else x :: dedupFirstAux (x :: seen) xs

/-- Remove duplicate node ids, keeping first occurrences. -/
def dedupFirst (l : List Nat) : List Nat :=
  dedupFirstAux [] l

lemma mem_dedupFirstAux :
    ∀ (l seen : List Nat) (y : Nat),
      y ∈ dedupFirstAux seen l ↔ y ∈ l ∧ y ∉ seen := by
  intro l
  induction l with
  | nil => intro seen y; simp [dedupFirstAux]
  | cons x xs ih =>
    intro seen y
    by_cases hx : x ∈ seen
    · rw [dedupFirstAux, if_pos hx, ih]
      simp only [List.mem_cons]
      constructor
      · rintro ⟨hy, hs⟩; exact ⟨Or.inr hy, hs⟩
      · rintro ⟨rfl | hy, hs⟩
        · exact absurd hx hs
        · exact ⟨hy, hs⟩
    · rw [dedupFirstAux, if_neg hx]
      simp only [List.mem_cons, ih]
      constructor
      · rintro (rfl | ⟨hy, hs⟩)
        · exact ⟨Or.inl rfl, hx⟩
        · exact ⟨Or.inr hy, fun hc => hs (Or.inr hc)⟩
      · rintro ⟨rfl | hy, hs⟩
        · exact Or.inl rfl
        · by_cases hyx : y = x
          · exact Or.inl hyx
          · exact Or.inr ⟨hy, by simp [List.mem_cons, hyx, hs]⟩

lemma mem_dedupFirst (l : List Nat) (y : Nat) : y ∈ dedupFirst l ↔ y ∈ l := by
  simp [dedupFirst, mem_dedupFirstAux]

lemma chainToMrca_self (t : CTree) (m f : Nat) : chainToMrca t m f m = some [] := by
  cases f <;> simp [chainToMrca]

lemma pathUnion_all_self (t : CTree) (x f : Nat) :
    ∀ l : List Nat, (∀ y ∈ l, y = x) → pathUnion t x f l = some ∅ := by
  intro l
  induction l with
  | nil => intro _; rfl
  | cons a l ih =>
    intro h
    have ha : a = x := h a (List.mem_cons_self a l)
    subst ha
    have hrest := ih fun y hy => h y (List.mem_cons_of_mem _ hy)
    simp [pathUnion, chainToMrca_self, hrest]

/-- If every listed id equals `x`, the modelled MRCA is `x` itself. -/
lemma find_mrca_all_self (t : CTree) (l : List Nat) (x : Nat) (hne : l ≠ [])
    (h : ∀ y ∈ l, y = x) : find_mrca t l = x := by
  have hmin : listMin l = x := h _ (listMin_mem l hne)
  have hhead : ∃ tl, upChain t t.numNodes x = x :: tl := by
    cases hn : t.numNodes with
    | zero => exact ⟨[], rfl⟩
    | succ f =>
      cases hp : t.parent x with
      | none => exact ⟨[], by simp [upChain, hp]⟩
      | some p => exact ⟨upChain t f p, by simp [upChain, hp]⟩
  obtain ⟨tl, htl⟩ := hhead
  have hpred : (l.all fun y => isAncestor t x y) = true := by
    rw [List.all_eq_true]
    intro y hy
    rw [h y hy]
    rw [isAncestor, decide_eq_true_eq, htl]
    exact List.mem_cons_self x tl
  unfold find_mrca
  rw [hmin, htl, List.find?_cons, hpred]

/-- Claim C10: duplicate leaf ids never change the PD; the result on any
list equals the result on the list with duplicates removed (keeping
first occurrences). -/
theorem faiths_pd_dedup_invariant (t : CTree) (l : List Nat) :
    calculate_faiths_pd_optimized t l =
      calculate_faiths_pd_optimized t (dedupFirst l) := by
  have hmem : ∀ x, x ∈ dedupFirst l ↔ x ∈ l := mem_dedupFirst l
  by_cases h0 : l.length = 0
  · rw [List.length_eq_zero.mp h0]
    rfl
  by_cases h1 : l.length = 1
  · obtain ⟨x, rfl⟩ := List.length_eq_one.mp h1
    rfl
  -- now l has at least two entries
  have hne : l ≠ [] := by
    intro h; rw [h] at h0; exact h0 rfl
  have hdne : dedupFirst l ≠ [] := by
    intro hd
    have : ∀ y, y ∉ l := fun y hy => by
      have := (hmem y).mpr hy
      rw [hd] at this
      cases this
    exact hne (List.eq_nil_iff_forall_not_mem.mpr this)
  by_cases hd1 : (dedupFirst l).length = 1
  · -- all elements of l are equal; both sides are 0
    obtain ⟨x, hx⟩ := List.length_eq_one.mp hd1
    have hall : ∀ y ∈ l, y = x := by
      intro y hy
      have := (hmem y).mpr hy
      rw [hx] at this
      simpa using this
    rw [hx, single_short t [x] (by simp)]
    unfold calculate_faiths_pd_optimized
    rw [if_neg h0, if_neg h1,
      find_mrca_all_self t l x hne hall, pdFold_eq, pathUnion_all_self t x _ l hall]
    simp
  · -- both lists have at least two entries
    have hd0 : (dedupFirst l).length ≠ 0 := by
      intro hd
      exact hdne (List.length_eq_zero.mp hd)
    unfold calculate_faiths_pd_optimized
    rw [if_neg h0, if_neg h1, if_neg hd0, if_neg hd1,
      find_mrca_congr t l (dedupFirst l) (fun x => (hmem x).symm),
      pdFold_eq, pdFold_eq,
      pathUnion_congr t _ _ l (dedupFirst l) (fun x => (hmem x).symm)]

/-- If the target lies on a node's ancestor chain (within the given fuel),
the walk to it succeeds. -/
lemma chainToMrca_of_mem_upChain (t : CTree) (m : Nat) :
    ∀ (f current : Nat), m ∈ upChain t f current →
      ∃ p, chainToMrca t m f current = some p := by
  intro f
  induction f with
  | zero =>
    intro current hm
    simp only [upChain, List.mem_singleton] at hm
    subst hm
    exact ⟨[], by simp [chainToMrca]⟩
  | succ f ih =>
    intro current hm
    by_cases hc : current = m
    · subst hc
      exact ⟨[], chainToMrca_self t current (f + 1)⟩
    · cases hp : t.parent current with
      | none =>
        rw [upChain, hp] at hm
        simp only [List.mem_singleton] at hm
        exact absurd hm.symm hc
      | some p =>
        rw [upChain, hp, List.mem_cons] at hm
        rcases hm with hm | hm
        · exact absurd hm.symm hc
        · obtain ⟨q, hq⟩ := ih p hm
          exact ⟨current :: q, by simp [chainToMrca, hc, hp, hq]⟩

/-- If every listed leaf has the guild's MRCA on its ancestor chain, the
per-leaf loop of `calculate_faiths_pd_optimized` succeeds. -/
lemma pdFold_isSome_of_anc (t : CTree) (g : List Nat)
    (h : ∀ leaf ∈ g, isAncestor t (find_mrca t g) leaf = true) :
    ∃ va, pdFold t (find_mrca t g) t.numNodes g ∅ 0 = some va := by
  rw [pdFold_eq]
  have hps : (pathUnion t (find_mrca t g) t.numNodes g).isSome = true := by
    rw [pathUnion_isSome]
    intro x hx
    obtain ⟨p, hp⟩ := chainToMrca_of_mem_upChain t (find_mrca t g) t.numNodes x
      (by have := h x hx; rwa [isAncestor, decide_eq_true_eq] at this)
    rw [hp]
    rfl
  obtain ⟨S, hS⟩ := Option.isSome_iff_exists.mp hps
  exact ⟨_, by rw [hS]; rfl⟩

lemma single_isSome_of_anc (t : CTree) (l : List Nat)
    (h : ∀ leaf ∈ l, isAncestor t (find_mrca t l) leaf = true) :
    ∃ r, calculate_faiths_pd_optimized t l = some r := by
  by_cases hlen : l.length < 2
  · exact ⟨0, single_short t l hlen⟩
  · obtain ⟨⟨v, total⟩, hva⟩ := pdFold_isSome_of_anc t l h
    refine ⟨total, ?_⟩
    unfold calculate_faiths_pd_optimized
    rw [if_neg (by omega), if_neg (by omega), hva]

lemma batchGo_isSome_of_anc (t : CTree) :
    ∀ (guilds : List (List Nat)) (visited : Finset Nat),
      (∀ g ∈ guilds, ∀ leaf ∈ g, isAncestor t (find_mrca t g) leaf = true) →
      ∃ rs, batchGo t t.numNodes guilds visited = some rs := by
  intro guilds
  induction guilds with
  | nil => intro visited _; exact ⟨[], rfl⟩
  | cons g rest ih =>
    intro visited h
    by_cases hg : g.length < 2
    · obtain ⟨rs, hrs⟩ := ih visited fun g' hg' => h g' (List.mem_cons_of_mem _ hg')
      exact ⟨0 :: rs, by simp [batchGo, if_pos hg, hrs]⟩
    · obtain ⟨⟨v, total⟩, hva⟩ :=
        pdFold_isSome_of_anc t g (h g (List.mem_cons_self g rest))
      obtain ⟨rs, hrs⟩ := ih v fun g' hg' => h g' (List.mem_cons_of_mem _ hg')
      exact ⟨total :: rs, by simp [batchGo, if_neg hg, hva, hrs]⟩

/-- If the target never appears on a node's ancestor chain (for any amount
of fuel), the walk fails for every amount of fuel: the model of a C++
while-loop that never satisfies its exit condition. -/
lemma walkUp_none_of_not_anc (t : CTree) (m : Nat) :
    ∀ (fuel leaf : Nat), (∀ f, m ∉ upChain t f leaf) →
      ∀ (v : Finset Nat) (a : ℚ), walkUp t m fuel leaf v a = none := by
  intro fuel
  induction fuel with
  | zero =>
    intro leaf h v a
    have hne : leaf ≠ m := by
      intro hc
      exact h 0 (by simp [upChain, hc])
    simp [walkUp, hne]
  | succ f ih =>
    intro leaf h v a
    have hne : leaf ≠ m := by
      intro hc
      exact h 0 (by simp [upChain, hc])
    cases hp : t.parent leaf with
    | none => simp [walkUp, hne, hp]
    | some p =>
      have hp' : ∀ f', m ∉ upChain t f' p := by
        intro f' hc
        exact h (f' + 1) (by rw [upChain, hp]; exact List.mem_cons_of_mem _ hc)
      simp only [walkUp, hne, if_false, hp]
      split
      · exact ih p hp' v a
      · exact ih p hp' (insert leaf v) (a + t.edgeLength leaf)

/-- Claim C9: when the MRCA returned by `find_mrca` lies on every listed
leaf's (finite, acyclic) parent chain, every per-leaf walk terminates, so
`calculate_faiths_pd_optimized` and `calculate_faiths_pd_batch` produce
results; when it does not lie on some leaf's chain, that leaf's walk
never satisfies its exit condition (it fails for every fuel bound). -/
theorem pd_walk_termination (t : CTree) (l : List Nat)
    (h : ∀ leaf ∈ l, isAncestor t (find_mrca t l) leaf = true) :
    (∃ r, calculate_faiths_pd_optimized t l = some r) ∧
    (∀ guilds : List (List Nat),
      (∀ g ∈ guilds, ∀ leaf ∈ g, isAncestor t (find_mrca t g) leaf = true) →
      ∃ rs, calculate_faiths_pd_batch t guilds = some rs) ∧
    (∀ (leaf m : Nat), (∀ f, m ∉ upChain t f leaf) →
      ∀ (fuel : Nat) (v : Finset Nat) (a : ℚ), walkUp t m fuel leaf v a = none) :=
  ⟨single_isSome_of_anc t l h,
    fun guilds hg => batchGo_isSome_of_anc t guilds ∅ hg,
    fun leaf m hm fuel v a => walkUp_none_of_not_anc t m fuel leaf hm v a⟩

theorem pd_walk_termination_witness :
    (∀ leaf ∈ ([3, 4] : List Nat),
      isAncestor specTree (find_mrca specTree [3, 4]) leaf = true) ∧
    ∃ r, calculate_faiths_pd_optimized specTree [3, 4] = some r :=
  ⟨by decide, (pd_walk_termination specTree [3, 4] (by decide)).1⟩

/-- `calculate_faiths_pd_original` (benchmark_pd_calculation_only.cpp,
lines 21-43) and `calculate_faiths_pd`
(benchmark_faiths_pd_compacttree.cpp, lines 26-50): the `unordered_set`
visited marker, modelled — like the optimized variant — as a finite set;
the guard is the combined `size() < 2` check. -/
def calculate_faiths_pd_original (t : CTree) (leaf_nodes : List Nat) : Option ℚ :=
  if leaf_nodes.length < 2 then some 0
  else
    match pdFold t (find_mrca t leaf_nodes) t.numNodes leaf_nodes ∅ 0 with
    | none => none
    | some (_, total) => some total

/-- The inner while-loop with a dense array marker (`vector<bool>` /
`vector<uint8_t>` indexed by node id), modelled as a `Bool` list of
length `num_nodes`.  An index beyond the array (undefined behaviour in
C++) reads `false` and drops the write. -/
def walkUpArr (t : CTree) (mrca : Nat) :
    Nat → Nat → List Bool → ℚ → Option (List Bool × ℚ)
  | 0, current, visited, acc =>
    if current = mrca then some (visited, acc) else none
  | f + 1, current, visited, acc =>
    if current = mrca then some (visited, acc)
    else
      match t.parent current with
      | none => none
      | some p =>
        if visited.getD current false then walkUpArr t mrca f p visited acc
        else walkUpArr t mrca f p (visited.set current true) (acc + t.edgeLength current)

/-- The per-leaf loop over the dense array marker. -/
def pdFoldArr (t : CTree) (mrca fuel : Nat) :
    List Nat → List Bool → ℚ → Option (List Bool × ℚ)
  | [], visited, acc => some (visited, acc)
  | leaf :: rest, visited, acc =>
    match walkUpArr t mrca fuel leaf visited acc with
    | none => none
    | some (v, a) => pdFoldArr t mrca fuel rest v a

/-- `calculate_faiths_pd_vectorbool` (benchmark_pd_calculation_only.cpp,
lines 46-69): `vector<bool> visited(num_nodes, false)`. -/
def calculate_faiths_pd_vectorbool (t : CTree) (leaf_nodes : List Nat) : Option ℚ :=
  if leaf_nodes.length < 2 then some 0
  else
    match pdFoldArr t (find_mrca t leaf_nodes) t.numNodes leaf_nodes
        (List.replicate t.numNodes false) 0 with
    | none => none
    | some (_, total) => some total

/-- `calculate_faiths_pd_vectoruint8` (benchmark_pd_calculation_only.cpp,
lines 72-95): `vector<uint8_t> visited(num_nodes, 0)`; byte-for-bool, so
the model coincides with the `vector<bool>` one. -/
def calculate_faiths_pd_vectoruint8 (t : CTree) (leaf_nodes : List Nat) : Option ℚ :=
  if leaf_nodes.length < 2 then some 0
  else
    match pdFoldArr t (find_mrca t leaf_nodes) t.numNodes leaf_nodes
        (List.replicate t.numNodes false) 0 with
    | none => none
    | some (_, total) => some total

lemma getD_set_self : ∀ (l : List Bool) (n : Nat), n < l.length →
    (l.set n true).getD n false = true := by
  intro l
  induction l with
  | nil => intro n hn; simp at hn
  | cons b bs ih =>
    intro n hn
    cases n with
    | zero => rfl
    | succ m =>
      simp only [List.set_cons_succ, List.getD_cons_succ]
      exact ih m (by simpa using hn)

lemma getD_set_ne : ∀ (l : List Bool) (n m : Nat), n ≠ m →
    (l.set n true).getD m false = l.getD m false := by
  intro l
  induction l with
  | nil => intro n m _; rfl
  | cons b bs ih =>
    intro n m hnm
    cases n with
    | zero =>
      cases m with
      | zero => exact absurd rfl hnm
      | succ k => rfl
    | succ j =>
      cases m with
      | zero => rfl
      | succ k =>
        simp only [List.set_cons_succ, List.getD_cons_succ]
        exact ih j k (by omega)

lemma getD_replicate_false : ∀ (n i : Nat),
    (List.replicate n false).getD i false = false := by
  intro n
  induction n with
  | zero => intro i; rfl
  | succ m ih =>
    intro i
    cases i with
    | zero => rfl
    | succ j =>
      simp only [List.replicate, List.getD_cons_succ]
      exact ih j

/-- The dense-array walk simulates the set-based walk step for step: the
two visited representations stay in sync and produce the same total,
provided every walked node id is in range (no out-of-bounds access). -/
lemma walkUp_arr_rel (t : CTree) (m : Nat) :
    ∀ (fuel current : Nat) (pth : List Nat) (vl : List Bool) (vs : Finset Nat) (acc : ℚ),
      chainToMrca t m fuel current = some pth →
      (∀ x ∈ pth, x < t.numNodes) →
      vl.length = t.numNodes →
      (∀ i : Nat, vl.getD i false = true ↔ i ∈ vs) →
      ∃ (vl' : List Bool) (vs' : Finset Nat) (a' : ℚ),
        walkUpArr t m fuel current vl acc = some (vl', a') ∧
        walkUp t m fuel current vs acc = some (vs', a') ∧
        vl'.length = t.numNodes ∧
        (∀ i : Nat, vl'.getD i false = true ↔ i ∈ vs') := by
  intro fuel
  induction fuel with
  | zero =>
    intro current pth vl vs acc hc _ hlen hrel
    by_cases hm : current = m
    · exact ⟨vl, vs, acc, by simp [walkUpArr, hm], by simp [walkUp, hm], hlen, hrel⟩
    · simp [chainToMrca, hm] at hc
  | succ f ih =>
    intro current pth vl vs acc hc hrange hlen hrel
    by_cases hm : current = m
    · exact ⟨vl, vs, acc, by simp [walkUpArr, hm], by simp [walkUp, hm], hlen, hrel⟩
    · cases hp : t.parent current with
      | none => simp [chainToMrca, hm, hp] at hc
      | some p =>
        simp only [chainToMrca, hm, if_false, hp] at hc
        cases hq : chainToMrca t m f p with
        | none => rw [hq] at hc; simp at hc
        | some q =>
          rw [hq] at hc
          simp only [Option.map_some', Option.some_inj] at hc
          subst hc
          have hcur : current < t.numNodes := hrange current (List.mem_cons_self _ _)
          have hqrange : ∀ x ∈ q, x < t.numNodes :=
            fun x hx => hrange x (List.mem_cons_of_mem _ hx)
          by_cases hv : current ∈ vs
          · have hvl : vl.getD current false = true := (hrel current).mpr hv
            have hvl2 : vl[current]?.getD false = true := by simpa using hvl
            obtain ⟨vl', vs', a', h1, h2, h3, h4⟩ := ih p q vl vs acc hq hqrange hlen hrel
            exact ⟨vl', vs', a',
              by simp [walkUpArr, hm, hp, hvl2, h1],
              by simp [walkUp, hm, hp, hv, h2], h3, h4⟩
          · have hvl : vl.getD current false = false := by
              cases hb : vl.getD current false with
              | false => rfl
              | true => exact absurd ((hrel current).mp hb) hv
            have hvl2 : vl[current]?.getD false = false := by simpa using hvl
            have hrel' : ∀ i : Nat,
                (vl.set current true).getD i false = true ↔ i ∈ insert current vs := by
              intro i
              by_cases hic : i = current
              · subst hic
                rw [getD_set_self vl i (hlen ▸ hcur)]
                simp [Finset.mem_insert]
              · rw [getD_set_ne vl current i (fun hcc => hic hcc.symm), hrel i]
                simp [Finset.mem_insert, hic]
            obtain ⟨vl', vs', a', h1, h2, h3, h4⟩ :=
              ih p q (vl.set current true) (insert current vs)
                (acc + t.edgeLength current) hq hqrange (by simp [hlen]) hrel'
            exact ⟨vl', vs', a',
              by simp [walkUpArr, hm, hp, hvl2, h1],
              by simp [walkUp, hm, hp, hv, h2], h3, h4⟩

/-- The per-leaf loops over the two visited representations agree. -/
lemma pdFold_arr_rel (t : CTree) (m fuel : Nat) :
    ∀ (leaves : List Nat) (vl : List Bool) (vs : Finset Nat) (acc : ℚ),
      (∀ leaf ∈ leaves, ∃ pth, chainToMrca t m fuel leaf = some pth ∧
        ∀ x ∈ pth, x < t.numNodes) →
      vl.length = t.numNodes →
      (∀ i : Nat, vl.getD i false = true ↔ i ∈ vs) →
      ∃ (vl' : List Bool) (vs' : Finset Nat) (a' : ℚ),
        pdFoldArr t m fuel leaves vl acc = some (vl', a') ∧
        pdFold t m fuel leaves vs acc = some (vs', a') ∧
        vl'.length = t.numNodes ∧
        (∀ i : Nat, vl'.getD i false = true ↔ i ∈ vs') := by
  intro leaves
  induction leaves with
  | nil =>
    intro vl vs acc _ hlen hrel
    exact ⟨vl, vs, acc, rfl, rfl, hlen, hrel⟩
  | cons leaf rest ih =>
    intro vl vs acc h hlen hrel
    obtain ⟨pth, hpth, hrange⟩ := h leaf (List.mem_cons_self _ _)
    obtain ⟨vl', vs', a', h1, h2, h3, h4⟩ :=
      walkUp_arr_rel t m fuel leaf pth vl vs acc hpth hrange hlen hrel
    obtain ⟨vl'', vs'', a'', g1, g2, g3, g4⟩ :=
      ih vl' vs' a' (fun x hx => h x (List.mem_cons_of_mem _ hx)) h3 h4
    exact ⟨vl'', vs'', a'', by simp [pdFoldArr, h1, g1], by simp [pdFold, h2, g2], g3, g4⟩

/-- Claim C8: the four visited-marker implementations return identical
values: the hash-set variant, the two dense-array variants, and the
optimized function agree on every tree and leaf list (here under the
hypothesis that every walked node id is in range, i.e. no C++
out-of-bounds access occurs). -/
theorem pd_implementations_agree (t : CTree) (l : List Nat)
    (h : ∀ leaf ∈ l, ∃ pth,
      chainToMrca t (find_mrca t l) t.numNodes leaf = some pth ∧
        ∀ x ∈ pth, x < t.numNodes) :
    calculate_faiths_pd_original t l = calculate_faiths_pd_optimized t l ∧
    calculate_faiths_pd_vectorbool t l = calculate_faiths_pd_optimized t l ∧
    calculate_faiths_pd_vectoruint8 t l = calculate_faiths_pd_optimized t l := by
  have horig : calculate_faiths_pd_original t l = calculate_faiths_pd_optimized t l := by
    unfold calculate_faiths_pd_original calculate_faiths_pd_optimized
    by_cases h0 : l.length = 0
    · rw [if_pos (by omega), if_pos h0]
    by_cases h1 : l.length = 1
    · rw [if_pos (by omega), if_neg h0, if_pos h1]
    · rw [if_neg (by omega), if_neg h0, if_neg h1]
  have harr : calculate_faiths_pd_vectorbool t l = calculate_faiths_pd_optimized t l := by
    unfold calculate_faiths_pd_vectorbool calculate_faiths_pd_optimized
    by_cases h0 : l.length = 0
    · rw [if_pos (by omega), if_pos h0]
    by_cases h1 : l.length = 1
    · rw [if_pos (by omega), if_neg h0, if_pos h1]
    · rw [if_neg (by omega), if_neg h0, if_neg h1]
      obtain ⟨vl', vs', a', g1, g2, _, _⟩ :=
        pdFold_arr_rel t (find_mrca t l) t.numNodes l
          (List.replicate t.numNodes false) ∅ 0 h
          (List.length_replicate t.numNodes false)
          (fun i => by simp [getD_replicate_false])
      rw [g1, g2]
  exact ⟨horig, harr, harr ▸ rfl⟩

theorem pd_implementations_agree_witness :
    calculate_faiths_pd_original specTree [3, 4] =
        calculate_faiths_pd_optimized specTree [3, 4] ∧
      calculate_faiths_pd_vectorbool specTree [3, 4] =
        calculate_faiths_pd_optimized specTree [3, 4] ∧
      calculate_faiths_pd_vectoruint8 specTree [3, 4] =
        calculate_faiths_pd_optimized specTree [3, 4] :=
  pd_implementations_agree specTree [3, 4] (by
    intro leaf hleaf
    rcases List.mem_cons.mp hleaf with rfl | hleaf
    · exact ⟨[3], by decide, by decide⟩
    rcases List.mem_cons.mp hleaf with rfl | hleaf
    · exact ⟨[4], by decide, by decide⟩
    · cases hleaf)

/-- One node's data as read back from the CompactTree accessors by
`dump_tree_structure.cpp`: parent (`none` for the root, which the tool
writes as the sentinel 0xFFFFFFFF), child ids, raw label bytes, and the
f32 edge length carried as its 32-bit pattern `edgeBits` (the dump
writes the float's 4 memory bytes verbatim). -/
structure DumpNode where
  parent : Option Nat
  children : List Nat
  label : List Nat
  edgeBits : Nat

/-- A tree as serialized by `dump_tree_structure.cpp`: the per-id node
records (ascending id order) and the leaf count. -/
structure DumpTree where
  numLeaves : Nat
  nodes : List DumpNode

/-- Little-endian byte sequence of a 32-bit word: the memory image of a
`uint32_t` on the little-endian target (bits above 32 are dropped, as the
C++ cast to `uint32_t` does). -/
def le32 (v : Nat) : List Nat :=
  [v % 256, v / 256 % 256, v / 65536 % 256, v / 16777216 % 256]

/-- `write_u32` (dump_tree_structure.cpp, lines 26-28): append the four
bytes of the value. -/
def write_u32 (out : List Nat) (value : Nat) : List Nat :=
  out ++ le32 value

/-- `write_f32` (lines 30-32): append the four bytes of the float's bit
pattern. -/
def write_f32 (out : List Nat) (bits : Nat) : List Nat :=
  out ++ le32 bits

/-- `write_string` (lines 34-38): a u32 length then the raw bytes, with
no null terminator. -/
def write_string (out : List Nat) (s : List Nat) : List Nat :=
  write_u32 out s.length ++ s

/-- The encoder of `main` in dump_tree_structure.cpp (lines 67-91):
write the header (num_nodes, num_leaves), then for each node in
ascending id order its parent (0xFFFFFFFF when absent), child count,
child ids, length-prefixed label, and edge length. -/
def dump_tree_structure (t : DumpTree) : List Nat :=
  let out := write_u32 [] t.nodes.length
  let out := write_u32 out t.numLeaves
  t.nodes.foldl
    (fun out nd =>
      let out := write_u32 out
        (match nd.parent with
         | none => 4294967295
         | some p => p)
      let out := write_u32 out nd.children.length
      let out := nd.children.foldl write_u32 out
      let out := write_string out nd.label
      write_f32 out nd.edgeBits)
    out

/-- One node record of the spec §6 interchange layout. -/
def nodeRecord (nd : DumpNode) : List Nat :=
  le32 (match nd.parent with
    | none => 4294967295
    | some p => p) ++
  le32 nd.children.length ++
  (nd.children.map le32).flatten ++
  le32 nd.label.length ++ nd.label ++
  le32 nd.edgeBits

/-- The spec §6 interchange layout in full: u32 num_nodes, u32
num_leaves, then the node records in node-id order, all little-endian. -/
def specLayout (t : DumpTree) : List Nat :=
  le32 t.nodes.length ++ le32 t.numLeaves ++ (t.nodes.map nodeRecord).flatten

lemma foldl_write_u32 : ∀ (cs out : List Nat),
    cs.foldl write_u32 out = out ++ (cs.map le32).flatten := by
  intro cs
  induction cs with
  | nil => intro out; simp
  | cons c cs ih =>
    intro out
    simp only [List.foldl_cons, List.map_cons, List.flatten_cons, ih, write_u32,
      List.append_assoc]

lemma foldl_node_record : ∀ (nodes : List DumpNode) (out : List Nat),
    nodes.foldl
      (fun out nd =>
        let out := write_u32 out
          (match nd.parent with
           | none => 4294967295
           | some p => p)
        let out := write_u32 out nd.children.length
        let out := nd.children.foldl write_u32 out
        let out := write_string out nd.label
        write_f32 out nd.edgeBits)
      out = out ++ (nodes.map nodeRecord).flatten := by
  intro nodes
  induction nodes with
  | nil => intro out; simp
  | cons nd nodes ih =>
    intro out
    rw [List.foldl_cons, ih]
    simp only [List.map_cons, List.flatten_cons, write_u32, write_f32, write_string,
      foldl_write_u32, nodeRecord, List.append_assoc]

/-- Claim C7: the encoder of `dump_tree_structure` emits byte-for-byte
the spec's interchange layout: header of u32 num_nodes and u32
num_leaves, then per node (ascending id order) a u32 parent index with
sentinel 0xFFFFFFFF for the root, u32 num_children, the u32 child
indices, u32 label_len, the raw label bytes with no terminator, and the
f32 edge length, all little-endian. -/
theorem dump_matches_spec_layout (t : DumpTree) :
    dump_tree_structure t = specLayout t := by
  unfold dump_tree_structure specLayout
  rw [foldl_node_record]
  simp [write_u32, List.append_assoc]

/-- A materialized ancestor chain is complete: its last node has no
parent (it is the root). -/
def ChainEnds (t : CTree) (l : List Nat) : Prop :=
  ∃ r, l.getLast? = some r ∧ t.parent r = none

/-- Decidable check that a node's ancestor chain (within `numNodes`
steps) reaches the root: the well-formedness a real CompactTree
guarantees for every node. -/
def reachesRoot (t : CTree) (n : Nat) : Bool :=
  match (upChain t t.numNodes n).getLast? with
  | some r => decide (t.parent r = none)
  | none => false

lemma upChain_cons (t : CTree) (f n : Nat) : ∃ tl, upChain t f n = n :: tl := by
  cases f with
  | zero => exact ⟨[], rfl⟩
  | succ f =>
    cases hp : t.parent n with
    | none => exact ⟨[], by simp [upChain, hp]⟩
    | some p => exact ⟨upChain t f p, by simp [upChain, hp]⟩

lemma upChain_ne_nil (t : CTree) (f n : Nat) : upChain t f n ≠ [] := by
  obtain ⟨tl, h⟩ := upChain_cons t f n
  simp [h]

lemma reachesRoot_iff (t : CTree) (n : Nat) :
    reachesRoot t n = true ↔ ChainEnds t (upChain t t.numNodes n) := by
  unfold reachesRoot ChainEnds
  cases hl : (upChain t t.numNodes n).getLast? with
  | none => simp
  | some r => simp

lemma chainEnds_cons (t : CTree) (a : Nat) (l : List Nat) (h : l ≠ []) :
    ChainEnds t (a :: l) ↔ ChainEnds t l := by
  obtain ⟨b, l', rfl⟩ := List.exists_cons_of_ne_nil h
  unfold ChainEnds
  rw [List.getLast?_cons_cons]

lemma chainEnds_append (t : CTree) (lA lB : List Nat) (h : lB ≠ []) :
    ChainEnds t (lA ++ lB) → ChainEnds t lB := by
  rintro ⟨r, hr, hpr⟩
  rw [List.getLast?_append] at hr
  cases hlb : lB.getLast? with
  | none => exact absurd (List.getLast?_eq_none_iff.mp hlb) h
  | some rb =>
    rw [hlb] at hr
    have hrb : rb = r := by simpa [Option.or] using hr
    exact ⟨rb, hlb, hrb ▸ hpr⟩

/-- A complete chain is unchanged by extra fuel. -/
lemma upChain_stable (t : CTree) :
    ∀ (f g n : Nat), f ≤ g → ChainEnds t (upChain t f n) →
      upChain t g n = upChain t f n := by
  intro f
  induction f with
  | zero =>
    intro g n _ hend
    obtain ⟨r, hr, hpr⟩ := hend
    simp only [upChain, List.getLast?_singleton, Option.some_inj] at hr
    cases g with
    | zero => rfl
    | succ g' => simp [upChain, hr ▸ hpr]
  | succ f ih =>
    intro g n hfg hend
    cases g with
    | zero => omega
    | succ g' =>
      cases hp : t.parent n with
      | none => simp [upChain, hp]
      | some p =>
        have hu : upChain t (f + 1) n = n :: upChain t f p := by simp [upChain, hp]
        have hends' : ChainEnds t (upChain t f p) := by
          rw [hu] at hend
          exact (chainEnds_cons t n _ (upChain_ne_nil t f p)).mp hend
        have hg' : f ≤ g' := by omega
        simp [upChain, hp, ih g' p hg' hends']

/-- Any suffix of a complete chain starting at `x` is exactly the chain
of `x` (with the same fuel). -/
lemma upChain_suffix (t : CTree) :
    ∀ (l1 : List Nat) (f n x : Nat) (l2 : List Nat),
      upChain t f n = l1 ++ x :: l2 → ChainEnds t (upChain t f n) →
      upChain t f x = x :: l2 := by
  intro l1
  induction l1 with
  | nil =>
    intro f n x l2 heq hend
    obtain ⟨tl, htl⟩ := upChain_cons t f n
    rw [htl, List.nil_append] at heq
    injection heq with h1 h2
    subst h1
    subst h2
    exact htl
  | cons a l1' ih =>
    intro f n x l2 heq hend
    cases f with
    | zero =>
      simp only [upChain, List.cons_append] at heq
      injection heq with h1 h2
      exact absurd h2.symm (List.append_ne_nil_of_right_ne_nil l1' (List.cons_ne_nil x l2))
    | succ f' =>
      cases hp : t.parent n with
      | none =>
        simp only [upChain, hp, List.cons_append] at heq
        injection heq with h1 h2
        exact absurd h2.symm (List.append_ne_nil_of_right_ne_nil l1' (List.cons_ne_nil x l2))
      | some p =>
        have hu : upChain t (f' + 1) n = n :: upChain t f' p := by simp [upChain, hp]
        rw [hu, List.cons_append] at heq
        injection heq with h1 heq2
        have hend' : ChainEnds t (upChain t f' p) := by
          rw [hu] at hend
          exact (chainEnds_cons t n _ (upChain_ne_nil t f' p)).mp hend
        have hx : upChain t f' x = x :: l2 := ih f' p x l2 heq2 hend'
        have hendx : ChainEnds t (upChain t f' x) := by
          rw [hx]
          exact chainEnds_append t l1' (x :: l2) (List.cons_ne_nil x l2) (heq2 ▸ hend')
        rw [upChain_stable t f' (f' + 1) x (by omega) hendx, hx]

/-- A complete chain never repeats a node: the parent function is
deterministic, so a repeat would loop forever and the chain could not
end at the root. -/
lemma chain_nodup_of_ends (t : CTree) :
    ∀ (L f n : Nat), (upChain t f n).length ≤ L →
      ChainEnds t (upChain t f n) → (upChain t f n).Nodup := by
  intro L
  induction L with
  | zero =>
    intro f n hlen _
    have h1 : 0 < (upChain t f n).length := List.length_pos.mpr (upChain_ne_nil t f n)
    omega
  | succ L ih =>
    intro f n hlen hend
    obtain ⟨tl, htl⟩ := upChain_cons t f n
    rw [htl]
    refine List.nodup_cons.mpr ⟨?_, ?_⟩
    · intro hmem
      obtain ⟨t1, t2, ht⟩ := List.append_of_mem hmem
      have hsuf : upChain t f n = n :: t2 :=
        upChain_suffix t (n :: t1) f n n t2 (by rw [htl, ht]; simp) hend
      have hlens := congrArg List.length (hsuf.symm.trans (by rw [htl, ht] : upChain t f n = n :: (t1 ++ n :: t2)))
      simp only [List.length_cons, List.length_append] at hlens
      omega
    · cases htl2 : tl with
      | nil => exact List.nodup_nil
      | cons y t2 =>
        have hsuf : upChain t f y = y :: t2 :=
          upChain_suffix t [n] f n y t2 (by rw [htl, htl2]; rfl) hend
        have hend2 : ChainEnds t (upChain t f y) := by
          rw [hsuf]
          have := hend
          rw [htl, htl2] at this
          exact (chainEnds_cons t n (y :: t2) (List.cons_ne_nil y t2)).mp this
        have hlen2 : (upChain t f y).length ≤ L := by
          rw [hsuf]
          have := hlen
          rw [htl, htl2] at this
          simp only [List.length_cons] at this ⊢
          omega
        have hnd := ih f y hlen2 hend2
        rw [hsuf] at hnd
        exact hnd

lemma find?_split {p : Nat → Bool} :
    ∀ (l : List Nat) (a : Nat), l.find? p = some a →
      ∃ l1 l2, l = l1 ++ a :: l2 ∧ (∀ b ∈ l1, p b = false) ∧ p a = true := by
  intro l
  induction l with
  | nil => intro a h; simp [List.find?] at h
  | cons x l ih =>
    intro a h
    cases hx : p x with
    | true =>
      rw [List.find?_cons_of_pos _ hx] at h
      obtain rfl : x = a := Option.some_inj.mp h
      exact ⟨[], l, rfl, by simp, hx⟩
    | false =>
      rw [List.find?_cons_of_neg _ (by simp [hx])] at h
      obtain ⟨l1, l2, heq, hl1, hpa⟩ := ih a h
      refine ⟨x :: l1, l2, by rw [heq]; rfl, ?_, hpa⟩
      intro b hb
      rcases List.mem_cons.mp hb with rfl | hb
      · exact hx
      · exact hl1 b hb

/-- When some common ancestor of the listed leaves exists, the modelled
`find_mrca` returns the first (deepest) common ancestor on the smallest
leaf's chain; the nodes strictly below it on that chain are common
ancestors of nothing. -/
lemma find_mrca_found (t : CTree) (l : List Nat) (hne : l ≠ [])
    (hex : ∃ r, (l.all fun y => isAncestor t r y) = true) :
    ∃ l1 l2, upChain t t.numNodes (listMin l) = l1 ++ find_mrca t l :: l2 ∧
      (∀ b ∈ l1, (l.all fun y => isAncestor t b y) = false) ∧
      (l.all fun y => isAncestor t (find_mrca t l) y) = true := by
  obtain ⟨r, hr⟩ := hex
  have hrbase : r ∈ upChain t t.numNodes (listMin l) := by
    have := List.all_eq_true.mp hr (listMin l) (listMin_mem l hne)
    rwa [isAncestor, decide_eq_true_eq] at this
  have hfs :
      ((upChain t t.numNodes (listMin l)).find?
        (fun a => l.all fun y => isAncestor t a y)).isSome := by
    rw [List.find?_isSome]
    exact ⟨r, hrbase, hr⟩
  obtain ⟨m, hm⟩ := Option.isSome_iff_exists.mp hfs
  have hfm : find_mrca t l = m := by unfold find_mrca; rw [hm]
  obtain ⟨l1, l2, hsplit, hl1, hpm⟩ := find?_split _ m hm
  exact ⟨l1, l2, by rw [hfm]; exact hsplit, hl1, by rw [hfm]; exact hpm⟩

/-- The walk to `m` from `n` collects exactly the chain segment strictly
before the first occurrence of `m`. -/
lemma chainToMrca_of_split (t : CTree) (m : Nat) :
    ∀ (f n : Nat) (l1 l2 : List Nat),
      upChain t f n = l1 ++ m :: l2 → m ∉ l1 →
      chainToMrca t m f n = some l1 := by
  intro f
  induction f with
  | zero =>
    intro n l1 l2 heq hnm
    simp only [upChain] at heq
    cases l1 with
    | nil =>
      rw [List.nil_append] at heq
      injection heq with h1 h2
      simp [chainToMrca, h1]
    | cons a l1' =>
      rw [List.cons_append] at heq
      injection heq with h1 h2
      exact absurd h2.symm (List.append_ne_nil_of_right_ne_nil l1' (List.cons_ne_nil m l2))
  | succ f ih =>
    intro n l1 l2 heq hnm
    cases l1 with
    | nil =>
      obtain ⟨tl, htl⟩ := upChain_cons t (f + 1) n
      rw [htl, List.nil_append] at heq
      injection heq with h1 h2
      rw [h1]
      exact chainToMrca_self t m (f + 1)
    | cons a l1' =>
      cases hp : t.parent n with
      | none =>
        simp only [upChain, hp, List.cons_append] at heq
        injection heq with h1 h2
        exact absurd h2.symm (List.append_ne_nil_of_right_ne_nil l1' (List.cons_ne_nil m l2))
      | some p =>
        have hu : upChain t (f + 1) n = n :: upChain t f p := by simp [upChain, hp]
        rw [hu, List.cons_append] at heq
        injection heq with h1 heq2
        subst h1
        have hrec := ih p l1' l2 heq2 fun hc => hnm (List.mem_cons_of_mem _ hc)
        have hnm2 : ¬n = m := fun hc => hnm (hc ▸ List.mem_cons_self n l1')
        simp [chainToMrca, hnm2, hp, hrec]

lemma all_of_cons {p : Nat → Bool} {x : Nat} {S : List Nat}
    (h : ((x :: S).all p) = true) : (S.all p) = true ∧ p x = true := by
  rw [List.all_cons, Bool.and_eq_true] at h
  exact ⟨h.2, h.1⟩

/-- MRCA of a superset is an ancestor of the MRCA of the subset: adding a
leaf can only move the meeting point towards the root. -/
lemma mrca_cons_ancestor (t : CTree) (S : List Nat) (x : Nat)
    (hS : S ≠ [])
    (hrootS : reachesRoot t (listMin S) = true)
    (hex : ∃ r, ((x :: S).all fun y => isAncestor t r y) = true) :
    isAncestor t (find_mrca t (x :: S)) (find_mrca t S) = true ∧
    (S.all fun y => isAncestor t (find_mrca t S) y) = true ∧
    ((x :: S).all fun y => isAncestor t (find_mrca t (x :: S)) y) = true := by
  obtain ⟨r, hr⟩ := hex
  have hexS : ∃ r, (S.all fun y => isAncestor t r y) = true := ⟨r, (all_of_cons hr).1⟩
  obtain ⟨l1, l2, hsplit, hl1, hmanc⟩ := find_mrca_found t S hS hexS
  obtain ⟨-, -, -, -, hm'anc⟩ :=
    find_mrca_found t (x :: S) (List.cons_ne_nil x S) ⟨r, hr⟩
  have hm'S : (S.all fun y => isAncestor t (find_mrca t (x :: S)) y) = true :=
    (all_of_cons hm'anc).1
  have hm'base : find_mrca t (x :: S) ∈ upChain t t.numNodes (listMin S) := by
    have := List.all_eq_true.mp hm'S (listMin S) (listMin_mem S hS)
    rwa [isAncestor, decide_eq_true_eq] at this
  have hm'nl1 : find_mrca t (x :: S) ∉ l1 := fun hc => by
    rw [hl1 _ hc] at hm'S
    exact Bool.false_ne_true hm'S
  have hm'ml2 : find_mrca t (x :: S) ∈ find_mrca t S :: l2 := by
    rw [hsplit] at hm'base
    rcases List.mem_append.mp hm'base with h | h
    · exact absurd h hm'nl1
    · exact h
  have hends : ChainEnds t (upChain t t.numNodes (listMin S)) :=
    (reachesRoot_iff t _).mp hrootS
  have hsuff : upChain t t.numNodes (find_mrca t S) = find_mrca t S :: l2 :=
    upChain_suffix t l1 t.numNodes (listMin S) (find_mrca t S) l2 hsplit hends
  refine ⟨?_, hmanc, hm'anc⟩
  rw [isAncestor, decide_eq_true_eq, hsuff]
  exact hm'ml2

/-- Walking to a higher target collects a superset of the path: the walk
to the deeper MRCA is an initial segment of the walk to its ancestor. -/
lemma chain_path_subset (t : CTree) (s m m' : Nat)
    (hends : ChainEnds t (upChain t t.numNodes s))
    (hm : m ∈ upChain t t.numNodes s)
    (hm' : m' ∈ upChain t t.numNodes m) :
    ∃ p p', chainToMrca t m t.numNodes s = some p ∧
      chainToMrca t m' t.numNodes s = some p' ∧ ∀ y ∈ p, y ∈ p' := by
  have hnd : (upChain t t.numNodes s).Nodup :=
    chain_nodup_of_ends t (upChain t t.numNodes s).length t.numNodes s le_rfl hends
  obtain ⟨l1, l2, hsplit⟩ := List.append_of_mem hm
  have hml1 : m ∉ l1 := by
    have hnd2 := hsplit ▸ hnd
    obtain ⟨-, -, hdisj⟩ := List.nodup_append.mp hnd2
    exact fun hc => hdisj hc (List.mem_cons_self m l2)
  have hp : chainToMrca t m t.numNodes s = some l1 :=
    chainToMrca_of_split t m t.numNodes s l1 l2 hsplit hml1
  have hsuff : upChain t t.numNodes m = m :: l2 :=
    upChain_suffix t l1 t.numNodes s m l2 hsplit hends
  rw [hsuff] at hm'
  rcases List.mem_cons.mp hm' with rfl | hm'l2
  · exact ⟨l1, l1, hp, hp, fun y hy => hy⟩
  · obtain ⟨t1, t2, ht⟩ := List.append_of_mem hm'l2
    have hsplit' : upChain t t.numNodes s = (l1 ++ m :: t1) ++ m' :: t2 := by
      rw [hsplit, ht]
      simp
    have hm'pre : m' ∉ l1 ++ m :: t1 := by
      have hnd2 := hsplit' ▸ hnd
      obtain ⟨-, -, hdisj⟩ := List.nodup_append.mp hnd2
      exact fun hc => hdisj hc (List.mem_cons_self m' t2)
    have hp' : chainToMrca t m' t.numNodes s = some (l1 ++ m :: t1) :=
      chainToMrca_of_split t m' t.numNodes s _ t2 hsplit' hm'pre
    exact ⟨l1, l1 ++ m :: t1, hp, hp', fun y hy => List.mem_append.mpr (Or.inl hy)⟩

/-- When the MRCA is a common ancestor and there are at least two leaves,
the PD is the sum over the union of the leaf-to-MRCA paths. -/
lemma single_eq_sum_of_anc (t : CTree) (l : List Nat) (hlen : 2 ≤ l.length)
    (h : ∀ leaf ∈ l, isAncestor t (find_mrca t l) leaf = true) :
    ∃ U, pathUnion t (find_mrca t l) t.numNodes l = some U ∧
      calculate_faiths_pd_optimized t l = some (∑ y ∈ U, t.edgeLength y) := by
  have hps : (pathUnion t (find_mrca t l) t.numNodes l).isSome = true := by
    rw [pathUnion_isSome]
    intro y hy
    obtain ⟨p, hp⟩ := chainToMrca_of_mem_upChain t (find_mrca t l) t.numNodes y
      (by have := h y hy; rwa [isAncestor, decide_eq_true_eq] at this)
    rw [hp]
    rfl
  obtain ⟨U, hU⟩ := Option.isSome_iff_exists.mp hps
  refine ⟨U, hU, ?_⟩
  unfold calculate_faiths_pd_optimized
  rw [if_neg (by omega), if_neg (by omega), pdFold_eq, hU]
  simp

/-- Claim C6: adding a leaf never decreases Faith's PD.  Hypotheses: the
added leaf is new; every involved leaf's parent chain reaches the root;
the leaves have a common ancestor; edge lengths are non-negative (the
spec's data-model invariant). -/
theorem faiths_pd_monotone (t : CTree) (S : List Nat) (x : Nat)
    (hx : x ∉ S)
    (hroot : ∀ y ∈ x :: S, reachesRoot t y = true)
    (hca : ∃ r, ((x :: S).all fun y => isAncestor t r y) = true)
    (hnn : ∀ n : Nat, 0 ≤ t.edgeLength n) :
    ∃ v v', calculate_faiths_pd_optimized t S = some v ∧
      calculate_faiths_pd_optimized t (x :: S) = some v' ∧ v ≤ v' := by
  by_cases hSe : S = []
  · subst hSe
    exact ⟨0, 0, rfl, rfl, le_refl 0⟩
  · have hlp : 0 < S.length := List.length_pos.mpr hSe
    obtain ⟨hm'm, hmS, hm'L⟩ := mrca_cons_ancestor t S x hSe
      (hroot (listMin S) (List.mem_cons_of_mem _ (listMin_mem S hSe))) hca
    have hm'Lforall : ∀ y ∈ x :: S, isAncestor t (find_mrca t (x :: S)) y = true :=
      List.all_eq_true.mp hm'L
    have hmSforall : ∀ y ∈ S, isAncestor t (find_mrca t S) y = true :=
      List.all_eq_true.mp hmS
    obtain ⟨U', hU', hval'⟩ := single_eq_sum_of_anc t (x :: S)
      (by simp only [List.length_cons]; omega) hm'Lforall
    by_cases hS1 : S.length = 1
    · refine ⟨0, _, single_short t S (by omega), hval', ?_⟩
      exact Finset.sum_nonneg fun i _ => hnn i
    · obtain ⟨U, hU, hval⟩ := single_eq_sum_of_anc t S (by omega) hmSforall
      refine ⟨_, _, hval, hval', ?_⟩
      refine Finset.sum_le_sum_of_subset_of_nonneg ?_ fun i _ _ => hnn i
      intro y hy
      obtain ⟨s, hsS, p, hp, hyp⟩ := (pathUnion_mem t _ _ S U hU y).mp hy
      have hends : ChainEnds t (upChain t t.numNodes s) :=
        (reachesRoot_iff t s).mp (hroot s (List.mem_cons_of_mem _ hsS))
      have hmem : find_mrca t S ∈ upChain t t.numNodes s := by
        have := hmSforall s hsS
        rwa [isAncestor, decide_eq_true_eq] at this
      have hmem' : find_mrca t (x :: S) ∈ upChain t t.numNodes (find_mrca t S) := by
        rwa [isAncestor, decide_eq_true_eq] at hm'm
      obtain ⟨p0, p', hp0, hp', hsub⟩ := chain_path_subset t s _ _ hends hmem hmem'
      have hpp0 : p = p0 := Option.some_inj.mp (hp ▸ hp0)
      rw [pathUnion_mem t _ _ (x :: S) U' hU' y]
      exact ⟨s, List.mem_cons_of_mem _ hsS, p', hp', hsub y (hpp0 ▸ hyp)⟩

theorem faiths_pd_monotone_witness :
    (3 : Nat) ∉ ([4] : List Nat) ∧
      ∃ v v', calculate_faiths_pd_optimized specTree [4] = some v ∧
        calculate_faiths_pd_optimized specTree [3, 4] = some v' ∧ v ≤ v' :=
  ⟨by decide,
    faiths_pd_monotone specTree [4] 3 (by decide) (by decide) ⟨0, by decide⟩
      (by intro n; simp only [specTree]; split <;> norm_num)⟩
